import Mathlib

/-!
# Verification of `TowerOfHanoi` (`lru_cache.ipynb`)

Shallow embedding of the notebook's code: the move-listing function `hanoi`,
the step-counting function `hanoi_count`, and the `@lru_cache()`-memoized
version of `hanoi_count`.  The cache itself (`functools.lru_cache`) is not
part of the repository's sources, so its LRU behaviour is modelled from the
specification's `get_or_compute` contract (§3, §4.1 of the spec), with the
cache state threaded explicitly.

Python's arbitrary-precision `int` argument `n_disks` is embedded as `Int`;
the step counts and list lengths are natural numbers.
-/

/-- Poles are the strings `"A"`, `"B"`, `"C"` in the notebook. -/
abbrev Pole := String

/-- `hanoi(n_disks, start_pole, free_pole, end_pole)` from the notebook:
returns the list of steps moving `n_disks` disks from `start_pole` to
`end_pole`.  Python's f-string is embedded as string concatenation. -/
def hanoi (n_disks : Int) (start_pole free_pole end_pole : Pole) : List String :=
  if _h : n_disks > 0 then
    hanoi (n_disks - 1) start_pole end_pole free_pole ++
      ["Move disk " ++ toString n_disks ++ " from rod " ++ start_pole ++
        " to rod " ++ end_pole] ++
      hanoi (n_disks - 1) free_pole start_pole end_pole
  else
    []
termination_by n_disks.toNat
decreasing_by all_goals omega

/-- `hanoi_count(n_disks, start_pole, free_pole, end_pole)` from the notebook:
counts the steps needed to move `n_disks` disks from `start_pole` to
`end_pole`.  `steps` starts at `0` and, when `n_disks > 0`, accumulates the
two recursive counts around a single `+ 1`. -/
def hanoi_count (n_disks : Int) (start_pole free_pole end_pole : Pole) : Nat :=
  if _h : n_disks > 0 then
    hanoi_count (n_disks - 1) start_pole end_pole free_pole + 1 +
      hanoi_count (n_disks - 1) free_pole start_pole end_pole
  else
    0
termination_by n_disks.toNat
decreasing_by all_goals omega

/-!
## The LRU cache

Modelled from the spec: `functools.lru_cache`'s internals are not part of the
repository sources, so the bounded memoizing cache is embedded from the
spec's data model (§3) and `get_or_compute` contract (§4.1): an ordered
mapping from keys to values kept most-recently-used first, bounded by a
`capacity` (`none` meaning unbounded); a hit promotes its key to
most-recently-used, a miss computes, inserts the key as most-recently-used
and, if the size now exceeds a finite capacity, evicts the single
least-recently-used entry (the last one).
-/

/-- Modelled from the spec: the `Cache` of §3 — an ordered mapping from
`CacheKey` to results, most-recently-used first, with an optional capacity
(`none` = unbounded, mirroring `@lru_cache()`'s "no limit" configuration). -/
structure LRU (K V : Type) where
  entries : List (K × V)
  capacity : Option Nat

/-- Modelled from the spec: `new_cache(capacity)` (§6) — an empty cache. -/
def newCache (K V : Type) (capacity : Option Nat) : LRU K V :=
  ⟨[], capacity⟩

/-- Number of entries currently stored. -/
def LRU.size {K V : Type} (σ : LRU K V) : Nat :=
  σ.entries.length

/-- Look a key up in the entry list (first, i.e. most recent, match). -/
def lookupEntry {K V : Type} [DecidableEq K] : List (K × V) → K → Option V
  | [], _ => none
  | e :: es, k => if e.1 = k then some e.2 else lookupEntry es k

/-- Remove the (first) entry with the given key from the entry list. -/
def removeEntry {K V : Type} [DecidableEq K] : List (K × V) → K → List (K × V)
  | [], _ => []
  | e :: es, k => if e.1 = k then es else e :: removeEntry es k

/-- Modelled from the spec: the recency refresh on a hit (§4.1 step 1) —
the key moves to the most-recently-used position, keeping its value. -/
def LRU.touch {K V : Type} [DecidableEq K] (σ : LRU K V) (k : K) (v : V) : LRU K V :=
  { σ with entries := (k, v) :: removeEntry σ.entries k }

/-- Modelled from the spec: the miss insertion (§4.1 steps 2–3) — the new
entry becomes most-recently-used; if the size then exceeds a finite
capacity, the single least-recently-used entry (the last) is evicted. -/
def LRU.insertNew {K V : Type} [DecidableEq K] (σ : LRU K V) (k : K) (v : V) : LRU K V :=
  let es := (k, v) :: σ.entries
  match σ.capacity with
  | none => { σ with entries := es }
  | some cap => { σ with entries := if es.length > cap then es.dropLast else es }

/-- Modelled from the spec: `get_or_compute(key, compute_fn)` (§4.1).
Returns the result, the updated cache, and whether `compute_fn` was
invoked (`false` on a hit, `true` on a miss). -/
def getOrCompute {K V : Type} [DecidableEq K] (σ : LRU K V) (k : K) (f : Unit → V) :
    V × LRU K V × Bool :=
  match lookupEntry σ.entries k with
  | some v => (v, σ.touch k v, false)
  | none =>
    let v := f ()
    (v, σ.insertNew k v, true)

/-- A sequence of `get_or_compute` operations, one per `(key, value)` pair. -/
def applyOps {K V : Type} [DecidableEq K] (ops : List (K × V)) (σ : LRU K V) : LRU K V :=
  ops.foldl (fun s op => (getOrCompute s op.1 (fun _ => op.2)).2.1) σ

/-- The keys of an entry list, in order. -/
def keysOf {K V : Type} (es : List (K × V)) : List K :=
  es.map Prod.fst

/-!
## The memoized `hanoi_count`

The notebook redefines `hanoi_count` under `@lru_cache()`: every call —
including the recursive ones, which go through the wrapper — first consults
the cache keyed by the full argument tuple `(n_disks, start_pole, free_pole,
end_pole)`; a miss runs the body and stores the result.  The mutable cache
of the decorator is embedded by threading the cache state through the
recursion, and the wrapper additionally reports how many times the
underlying body was invoked.
-/

/-- Cache keys: the full argument tuple of `hanoi_count`. -/
abbrev HKey := Int × Pole × Pole × Pole

/-- The `@lru_cache()`-memoized `hanoi_count` of the notebook, with the
cache state threaded explicitly.  Returns `(result, cache, invocations)`
where `invocations` counts the runs of the underlying body (the misses). -/
def hanoi_count_memo (σ : LRU HKey Nat) (n_disks : Int)
    (start_pole free_pole end_pole : Pole) : Nat × LRU HKey Nat × Nat :=
  match lookupEntry σ.entries (n_disks, start_pole, free_pole, end_pole) with
  | some v => (v, σ.touch (n_disks, start_pole, free_pole, end_pole) v, 0)
  | none =>
    if _h : n_disks > 0 then
      let r1 := hanoi_count_memo σ (n_disks - 1) start_pole end_pole free_pole
      let r2 := hanoi_count_memo r1.2.1 (n_disks - 1) free_pole start_pole end_pole
      let v := r1.1 + 1 + r2.1
      (v, r2.2.1.insertNew (n_disks, start_pole, free_pole, end_pole) v,
        1 + r1.2.2 + r2.2.2)
    else
      (0, σ.insertNew (n_disks, start_pole, free_pole, end_pole) 0, 1)
termination_by n_disks.toNat
decreasing_by all_goals omega

/-- Every stored entry holds the value `hanoi_count` computes for its key. -/
def cacheCorrect (σ : LRU HKey Nat) : Prop :=
  ∀ e ∈ σ.entries, e.2 = hanoi_count e.1.1 e.1.2.1 e.1.2.2.1 e.1.2.2.2

/-- The six orderings of three pole names. -/
def poleTriples (a b c : Pole) : List (Pole × Pole × Pole) :=
  [(a, b, c), (a, c, b), (b, a, c), (b, c, a), (c, a, b), (c, b, a)]

/-- All cache keys a memoized call on `(n, a, b, c)` can ever store:
levels `0 … n` paired with the six pole orderings. -/
def hanoiKeys (n : Int) (a b c : Pole) : List HKey :=
  (List.range (n.toNat + 1)).flatMap
    (fun m => (poleTriples a b c).map (fun p => ((m : Int), p)))

/-!
## Theorems: the plain functions
-/

theorem hanoi_pos {n : Int} (h : 0 < n) (a b c : Pole) :
    hanoi n a b c =
      hanoi (n - 1) a c b ++
        ["Move disk " ++ toString n ++ " from rod " ++ a ++ " to rod " ++ c] ++
        hanoi (n - 1) b a c := by
  rw [hanoi]
  simp [h]

theorem hanoi_nonpos {n : Int} (h : n ≤ 0) (a b c : Pole) :
    hanoi n a b c = [] := by
  rw [hanoi]
  simp [show ¬ n > 0 by omega]

theorem hanoi_count_pos {n : Int} (h : 0 < n) (a b c : Pole) :
    hanoi_count n a b c =
      hanoi_count (n - 1) a c b + 1 + hanoi_count (n - 1) b a c := by
  rw [hanoi_count]
  simp [h]

theorem hanoi_count_nonpos {n : Int} (h : n ≤ 0) (a b c : Pole) :
    hanoi_count n a b c = 0 := by
  rw [hanoi_count]
  simp [show ¬ n > 0 by omega]

/-- Closed form of the step count: `2 ^ n - 1` (with `n` clamped at `0`). -/
theorem hanoi_count_closed : ∀ (k : Nat) (n : Int), n.toNat = k →
    ∀ a b c, hanoi_count n a b c = 2 ^ k - 1 := by
  intro k
  induction k with
  | zero =>
    intro n hn a b c
    rw [hanoi_count_nonpos (by omega) a b c]
    rfl
  | succ k ih =>
    intro n hn a b c
    have hpos : 0 < n := by omega
    rw [hanoi_count_pos hpos a b c,
      ih (n - 1) (by omega) a c b, ih (n - 1) (by omega) b a c]
    have h1 : 1 ≤ 2 ^ k := Nat.one_le_two_pow
    have h2 : 2 ^ (k + 1) = 2 ^ k * 2 := pow_succ 2 k
    omega

/-- The move list and the step count agree in length. -/
theorem hanoi_length : ∀ (k : Nat) (n : Int), n.toNat = k →
    ∀ a b c, (hanoi n a b c).length = hanoi_count n a b c := by
  intro k
  induction k with
  | zero =>
    intro n hn a b c
    rw [hanoi_nonpos (by omega) a b c, hanoi_count_nonpos (by omega) a b c]
    rfl
  | succ k ih =>
    intro n hn a b c
    have hpos : 0 < n := by omega
    rw [hanoi_pos hpos a b c, hanoi_count_pos hpos a b c]
    simp [ih (n - 1) (by omega), Nat.add_comm, Nat.add_assoc, Nat.add_left_comm]

/-!
## Theorems: entry-list lemmas
-/

theorem lookupEntry_mem {K V : Type} [DecidableEq K] :
    ∀ {es : List (K × V)} {k : K} {v : V},
      lookupEntry es k = some v → (k, v) ∈ es := by
  intro es
  induction es with
  | nil => intro k v h; simp [lookupEntry] at h
  | cons e es ih =>
    intro k v h
    rw [lookupEntry] at h
    by_cases hk : e.1 = k
    · rw [if_pos hk] at h
      cases e with
      | mk ek ev =>
        obtain rfl : ek = k := hk
        obtain rfl : ev = v := by simpa using h
        exact List.mem_cons_self _ _
    · rw [if_neg hk] at h
      exact List.mem_cons_of_mem _ (ih h)

theorem lookupEntry_eq_none {K V : Type} [DecidableEq K] :
    ∀ {es : List (K × V)} {k : K},
      lookupEntry es k = none ↔ k ∉ keysOf es := by
  intro es
  induction es with
  | nil => intro k; simp [lookupEntry, keysOf]
  | cons e es ih =>
    intro k
    rw [lookupEntry]
    by_cases hk : e.1 = k
    · simp [hk, keysOf]
    · simp [hk, keysOf, Ne.symm hk]
      simpa [keysOf] using @ih k

theorem lookupEntry_cons_self {K V : Type} [DecidableEq K]
    (es : List (K × V)) (k : K) (v : V) :
    lookupEntry ((k, v) :: es) k = some v := by
  simp [lookupEntry]

theorem removeEntry_subset {K V : Type} [DecidableEq K] :
    ∀ (es : List (K × V)) (k : K), removeEntry es k ⊆ es := by
  intro es
  induction es with
  | nil => intro k; simp [removeEntry]
  | cons e es ih =>
    intro k
    rw [removeEntry]
    by_cases hk : e.1 = k
    · rw [if_pos hk]
      exact List.subset_cons_self e es
    · rw [if_neg hk]
      exact List.cons_subset_cons e (ih k)

theorem keysOf_removeEntry_subset {K V : Type} [DecidableEq K]
    (es : List (K × V)) (k : K) : keysOf (removeEntry es k) ⊆ keysOf es :=
  List.map_subset Prod.fst (removeEntry_subset es k)

theorem length_removeEntry {K V : Type} [DecidableEq K] :
    ∀ {es : List (K × V)} {k : K} {v : V},
      lookupEntry es k = some v → (removeEntry es k).length + 1 = es.length := by
  intro es
  induction es with
  | nil => intro k v h; simp [lookupEntry] at h
  | cons e es ih =>
    intro k v h
    rw [lookupEntry] at h
    rw [removeEntry]
    by_cases hk : e.1 = k
    · rw [if_pos hk]
      simp
    · rw [if_neg hk] at *
      simpa using ih h

theorem lookupEntry_removeEntry_ne {K V : Type} [DecidableEq K] :
    ∀ (es : List (K × V)) {k k' : K}, k ≠ k' →
      lookupEntry (removeEntry es k') k = lookupEntry es k := by
  intro es
  induction es with
  | nil => intro k k' _; simp [removeEntry]
  | cons e es ih =>
    intro k k' hkk
    rw [removeEntry]
    by_cases hk : e.1 = k'
    · rw [if_pos hk, lookupEntry, if_neg (by rw [hk]; exact Ne.symm hkk)]
    · rw [if_neg hk, lookupEntry, lookupEntry]
      by_cases he : e.1 = k
      · rw [if_pos he, if_pos he]
      · rw [if_neg he, if_neg he]
        exact ih hkk

theorem keysOf_removeEntry_nodup {K V : Type} [DecidableEq K] :
    ∀ {es : List (K × V)} (k : K), (keysOf es).Nodup →
      (keysOf (removeEntry es k)).Nodup ∧ k ∉ keysOf (removeEntry es k) := by
  intro es
  induction es with
  | nil => intro k _; simp [removeEntry, keysOf]
  | cons e es ih =>
    intro k hnd
    rw [keysOf, List.map_cons, List.nodup_cons] at hnd
    rw [removeEntry]
    by_cases hk : e.1 = k
    · rw [if_pos hk]
      refine ⟨by simpa [keysOf] using hnd.2, ?_⟩
      subst hk
      simpa [keysOf] using hnd.1
    · rw [if_neg hk]
      rcases ih k hnd.2 with ⟨h1, h2⟩
      constructor
      · rw [keysOf, List.map_cons, List.nodup_cons]
        exact ⟨fun hc => hnd.1 (keysOf_removeEntry_subset es k hc), h1⟩
      · rw [keysOf, List.map_cons, List.mem_cons]
        rintro (hc | hc)
        · exact hk hc.symm
        · exact h2 hc

/-!
## Theorems: cache-operation lemmas
-/

theorem capacity_touch {K V : Type} [DecidableEq K] (σ : LRU K V) (k : K) (v : V) :
    (σ.touch k v).capacity = σ.capacity := rfl

theorem capacity_insertNew {K V : Type} [DecidableEq K] (σ : LRU K V) (k : K) (v : V) :
    (σ.insertNew k v).capacity = σ.capacity := by
  rcases σ with ⟨es, cap⟩
  cases cap <;> rfl

theorem insertNew_entries_subset {K V : Type} [DecidableEq K] (σ : LRU K V) (k : K) (v : V) :
    (σ.insertNew k v).entries ⊆ (k, v) :: σ.entries := by
  rcases σ with ⟨es, cap⟩
  cases cap with
  | none => exact fun x hx => hx
  | some cap =>
    show (if _ then _ else _) ⊆ _
    split
    · exact List.dropLast_subset _
    · exact fun x hx => hx

theorem insertNew_entries_unbounded {K V : Type} [DecidableEq K]
    (σ : LRU K V) (k : K) (v : V) (h : σ.capacity = none) :
    (σ.insertNew k v).entries = (k, v) :: σ.entries := by
  rcases σ with ⟨es, cap⟩
  cases cap with
  | none => rfl
  | some cap => simp at h

theorem insertNew_entries_cons {K V : Type} [DecidableEq K]
    (σ : LRU K V) (k : K) (v : V) (h : σ.capacity ≠ some 0) :
    ∃ rest, (σ.insertNew k v).entries = (k, v) :: rest ∧ rest ⊆ σ.entries := by
  rcases σ with ⟨es, cap⟩
  cases cap with
  | none => exact ⟨es, rfl, fun x hx => hx⟩
  | some cap =>
    have hc1 : 1 ≤ cap := by
      rcases Nat.eq_zero_or_pos cap with h0 | h0
      · exact absurd (by rw [h0]) h
      · exact h0
    show ∃ rest, (if ((k, v) :: es).length > cap then ((k, v) :: es).dropLast
        else (k, v) :: es) = (k, v) :: rest ∧ rest ⊆ es
    split
    · next hlen =>
      match es with
      | [] => simp at hlen; omega
      | e :: es' =>
        refine ⟨(e :: es').dropLast, ?_, List.dropLast_subset _⟩
        rfl
    · exact ⟨es, rfl, fun x hx => hx⟩

/-!
## Theorems: the memoized function preserves the cache configuration
and stores only correct values
-/

theorem memo_capacity : ∀ (k : Nat) (n : Int), n.toNat ≤ k → ∀ σ a b c,
    (hanoi_count_memo σ n a b c).2.1.capacity = σ.capacity := by
  intro k
  induction k with
  | zero =>
    intro n hn σ a b c
    rw [hanoi_count_memo]
    cases hlk : lookupEntry σ.entries (n, a, b, c) with
    | some v => rfl
    | none =>
      rw [dif_neg (by omega : ¬ n > 0)]
      exact capacity_insertNew σ _ 0
  | succ k ih =>
    intro n hn σ a b c
    rw [hanoi_count_memo]
    cases hlk : lookupEntry σ.entries (n, a, b, c) with
    | some v => rfl
    | none =>
      by_cases hpos : n > 0
      · rw [dif_pos hpos]
        simp only [capacity_insertNew]
        rw [ih (n - 1) (by omega), ih (n - 1) (by omega)]
      · rw [dif_neg hpos]
        exact capacity_insertNew σ _ 0

theorem memo_correct : ∀ (k : Nat) (n : Int), n.toNat ≤ k → ∀ σ a b c,
    cacheCorrect σ →
    (hanoi_count_memo σ n a b c).1 = hanoi_count n a b c ∧
      cacheCorrect (hanoi_count_memo σ n a b c).2.1 := by
  intro k
  induction k with
  | zero =>
    intro n hn σ a b c hcc
    rw [hanoi_count_memo]
    cases hlk : lookupEntry σ.entries (n, a, b, c) with
    | some v =>
      constructor
      · exact hcc _ (lookupEntry_mem hlk)
      · intro e he
        rcases List.mem_cons.mp he with he | he
        · subst he
          exact hcc _ (lookupEntry_mem hlk)
        · exact hcc _ (removeEntry_subset _ _ he)
    | none =>
      rw [dif_neg (by omega : ¬ n > 0)]
      constructor
      · exact (hanoi_count_nonpos (by omega) a b c).symm
      · intro e he
        rcases List.mem_cons.mp (insertNew_entries_subset σ _ 0 he) with he | he
        · subst he
          show (0 : Nat) = hanoi_count n a b c
          exact (hanoi_count_nonpos (by omega) a b c).symm
        · exact hcc _ he
  | succ k ih =>
    intro n hn σ a b c hcc
    rw [hanoi_count_memo]
    cases hlk : lookupEntry σ.entries (n, a, b, c) with
    | some v =>
      constructor
      · exact hcc _ (lookupEntry_mem hlk)
      · intro e he
        rcases List.mem_cons.mp he with he | he
        · subst he
          exact hcc _ (lookupEntry_mem hlk)
        · exact hcc _ (removeEntry_subset _ _ he)
    | none =>
      by_cases hpos : n > 0
      · rw [dif_pos hpos]
        obtain ⟨hv1, hc1⟩ := ih (n - 1) (by omega) σ a c b hcc
        obtain ⟨hv2, hc2⟩ :=
          ih (n - 1) (by omega) (hanoi_count_memo σ (n - 1) a c b).2.1 b a c hc1
        constructor
        · show (hanoi_count_memo σ (n - 1) a c b).1 + 1 +
              (hanoi_count_memo (hanoi_count_memo σ (n - 1) a c b).2.1 (n - 1) b a c).1 =
              hanoi_count n a b c
          rw [hv1, hv2, hanoi_count_pos hpos a b c]
        · intro e he
          have hsub := insertNew_entries_subset
            (hanoi_count_memo (hanoi_count_memo σ (n - 1) a c b).2.1 (n - 1) b a c).2.1
            (n, a, b, c)
            ((hanoi_count_memo σ (n - 1) a c b).1 + 1 +
              (hanoi_count_memo (hanoi_count_memo σ (n - 1) a c b).2.1 (n - 1) b a c).1)
          rcases List.mem_cons.mp (hsub he) with he | he
          · subst he
            show (hanoi_count_memo σ (n - 1) a c b).1 + 1 +
                (hanoi_count_memo (hanoi_count_memo σ (n - 1) a c b).2.1 (n - 1) b a c).1 =
                hanoi_count n a b c
            rw [hv1, hv2, hanoi_count_pos hpos a b c]
          · exact hc2 _ he
      · rw [dif_neg hpos]
        constructor
        · exact (hanoi_count_nonpos (by omega) a b c).symm
        · intro e he
          rcases List.mem_cons.mp (insertNew_entries_subset σ _ 0 he) with he | he
          · subst he
            show (0 : Nat) = hanoi_count n a b c
            exact (hanoi_count_nonpos (by omega) a b c).symm
          · exact hcc _ he

/-- After any memoized call (on a cache that can hold at least one entry),
the full argument tuple is present, bound to the returned result. -/
theorem memo_lookup_self (σ : LRU HKey Nat) (n : Int) (a b c : Pole)
    (h : σ.capacity ≠ some 0) :
    lookupEntry (hanoi_count_memo σ n a b c).2.1.entries (n, a, b, c) =
      some (hanoi_count_memo σ n a b c).1 := by
  rw [hanoi_count_memo]
  cases hlk : lookupEntry σ.entries (n, a, b, c) with
  | some v => exact lookupEntry_cons_self _ _ _
  | none =>
    by_cases hpos : n > 0
    · rw [dif_pos hpos]
      have hcap :
          (hanoi_count_memo (hanoi_count_memo σ (n - 1) a c b).2.1
            (n - 1) b a c).2.1.capacity ≠ some 0 := by
        rw [memo_capacity (n - 1).toNat (n - 1) le_rfl,
          memo_capacity (n - 1).toNat (n - 1) le_rfl]
        exact h
      obtain ⟨rest, hrest, -⟩ := insertNew_entries_cons _ (n, a, b, c)
        ((hanoi_count_memo σ (n - 1) a c b).1 + 1 +
          (hanoi_count_memo (hanoi_count_memo σ (n - 1) a c b).2.1 (n - 1) b a c).1)
        hcap
      show lookupEntry _ (n, a, b, c) = some _
      rw [hrest]
      exact lookupEntry_cons_self _ _ _
    · rw [dif_neg hpos]
      obtain ⟨rest, hrest, -⟩ := insertNew_entries_cons σ (n, a, b, c) 0 h
      show lookupEntry _ (n, a, b, c) = some _
      rw [hrest]
      exact lookupEntry_cons_self _ _ _

/-- On an unbounded cache, a memoized call never loses a stored binding. -/
theorem memo_lookup_mono : ∀ (k : Nat) (n : Int), n.toNat ≤ k →
    ∀ σ a b c (key : HKey) (v : Nat), σ.capacity = none →
    lookupEntry σ.entries key = some v →
    lookupEntry (hanoi_count_memo σ n a b c).2.1.entries key = some v := by
  have step_touch : ∀ (σ : LRU HKey Nat) (key' : HKey) (v' : Nat) (key : HKey) (v : Nat),
      lookupEntry σ.entries key' = some v' →
      lookupEntry σ.entries key = some v →
      lookupEntry ((key', v') :: removeEntry σ.entries key') key = some v := by
    intro σ key' v' key v hlk hv
    by_cases hk : key' = key
    · subst hk
      rw [hlk] at hv
      rw [lookupEntry, if_pos rfl]
      exact hv.symm ▸ rfl
    · rw [lookupEntry, if_neg hk, lookupEntry_removeEntry_ne _ (Ne.symm hk)]
      exact hv
  intro k
  induction k with
  | zero =>
    intro n hn σ a b c key v hcap hv
    rw [hanoi_count_memo]
    cases hlk : lookupEntry σ.entries (n, a, b, c) with
    | some v' => exact step_touch σ _ v' key v hlk hv
    | none =>
      rw [dif_neg (by omega : ¬ n > 0)]
      have hne : (n, a, b, c) ≠ key := by
        intro hcontra
        rw [hcontra, hv] at hlk
        exact Option.noConfusion hlk
      show lookupEntry (LRU.insertNew σ (n, a, b, c) 0).entries key = some v
      rw [insertNew_entries_unbounded σ _ 0 hcap, lookupEntry, if_neg hne]
      exact hv
  | succ k ih =>
    intro n hn σ a b c key v hcap hv
    rw [hanoi_count_memo]
    cases hlk : lookupEntry σ.entries (n, a, b, c) with
    | some v' => exact step_touch σ _ v' key v hlk hv
    | none =>
      by_cases hpos : n > 0
      · rw [dif_pos hpos]
        have hcap1 : (hanoi_count_memo σ (n - 1) a c b).2.1.capacity = none := by
          rw [memo_capacity (n - 1).toNat (n - 1) le_rfl]
          exact hcap
        have hv1 := ih (n - 1) (by omega) σ a c b key v hcap hv
        have hv2 := ih (n - 1) (by omega) (hanoi_count_memo σ (n - 1) a c b).2.1
          b a c key v hcap1 hv1
        have hcap2 :
            (hanoi_count_memo (hanoi_count_memo σ (n - 1) a c b).2.1
              (n - 1) b a c).2.1.capacity = none := by
          rw [memo_capacity (n - 1).toNat (n - 1) le_rfl]
          exact hcap1
        have hne : (n, a, b, c) ≠ key := by
          intro hcontra
          rw [hcontra, hv] at hlk
          exact Option.noConfusion hlk
        show lookupEntry (LRU.insertNew _ (n, a, b, c) _).entries key = some v
        rw [insertNew_entries_unbounded _ _ _ hcap2, lookupEntry, if_neg hne]
        exact hv2
      · rw [dif_neg hpos]
        have hne : (n, a, b, c) ≠ key := by
          intro hcontra
          rw [hcontra, hv] at hlk
          exact Option.noConfusion hlk
        show lookupEntry (LRU.insertNew σ (n, a, b, c) 0).entries key = some v
        rw [insertNew_entries_unbounded σ _ 0 hcap, lookupEntry, if_neg hne]
        exact hv

/-!
## Theorems: the reachable key set
-/

theorem length_hanoiKeys (n : Int) (a b c : Pole) :
    (hanoiKeys n a b c).length = 6 * (n.toNat + 1) := by
  rw [hanoiKeys, List.length_flatMap]
  have : ∀ m : Nat,
      (List.length ∘ fun m : Nat => (poleTriples a b c).map (fun p => ((m : Int), p))) m = 6 := by
    intro m
    simp [poleTriples]
  rw [List.map_congr_left (fun m _ => this m)]
  simp [List.map_const', Nat.mul_comm]

theorem poleTriples_sub₁ (a b c : Pole) : poleTriples a c b ⊆ poleTriples a b c := by
  intro x hx
  simp [poleTriples] at hx ⊢
  tauto

theorem poleTriples_sub₂ (a b c : Pole) : poleTriples b a c ⊆ poleTriples a b c := by
  intro x hx
  simp [poleTriples] at hx ⊢
  tauto

theorem hanoiKeys_mono {n : Int} (hpos : 0 < n) {a b c a' b' c' : Pole}
    (hsub : poleTriples a' b' c' ⊆ poleTriples a b c) :
    hanoiKeys (n - 1) a' b' c' ⊆ hanoiKeys n a b c := by
  intro x hx
  rcases List.mem_flatMap.mp hx with ⟨m, hm, hmem⟩
  rcases List.mem_map.mp hmem with ⟨p, hp, rfl⟩
  refine List.mem_flatMap.mpr ⟨m, ?_, List.mem_map.mpr ⟨p, hsub hp, rfl⟩⟩
  rw [List.mem_range] at hm ⊢
  omega

theorem self_mem_hanoiKeys {n : Int} (hn : 0 ≤ n) (a b c : Pole) :
    ((n, a, b, c) : HKey) ∈ hanoiKeys n a b c := by
  have h1 : n.toNat ∈ List.range (n.toNat + 1) := List.mem_range.mpr (Nat.lt_succ_self _)
  have h2 : ((a, b, c) : Pole × Pole × Pole) ∈ poleTriples a b c := by simp [poleTriples]
  have h3 : ((n, a, b, c) : HKey) = (((n.toNat : Nat) : Int), (a, b, c)) := by
    rw [Int.toNat_of_nonneg hn]
  rw [h3]
  exact List.mem_flatMap.mpr ⟨n.toNat, h1, List.mem_map.mpr ⟨(a, b, c), h2, rfl⟩⟩

theorem hanoiKeys_fst {n : Int} {a b c : Pole} {x : HKey} (hx : x ∈ hanoiKeys n a b c) :
    0 ≤ x.1 ∧ x.1 ≤ (n.toNat : Int) := by
  rcases List.mem_flatMap.mp hx with ⟨m, hm, hmem⟩
  rcases List.mem_map.mp hmem with ⟨p, hp, rfl⟩
  rw [List.mem_range] at hm
  constructor
  · exact Int.ofNat_nonneg m
  · show ((m : Nat) : Int) ≤ (n.toNat : Int)
    exact_mod_cast Nat.lt_succ_iff.mp hm

/-- On an unbounded cache with distinct keys, a memoized call keeps the keys
distinct, grows the cache by exactly one entry per invocation of the body,
and only ever stores keys from the reachable key set. -/
theorem memo_growth : ∀ (k : Nat) (n : Int), n.toNat ≤ k → 0 ≤ n →
    ∀ σ a b c, σ.capacity = none → (keysOf σ.entries).Nodup →
    (keysOf (hanoi_count_memo σ n a b c).2.1.entries).Nodup ∧
    (hanoi_count_memo σ n a b c).2.1.entries.length =
      σ.entries.length + (hanoi_count_memo σ n a b c).2.2 ∧
    keysOf (hanoi_count_memo σ n a b c).2.1.entries ⊆
      keysOf σ.entries ++ hanoiKeys n a b c := by
  have hit_case : ∀ (n : Int) (σ : LRU HKey Nat) (a b c : Pole) (v : Nat),
      lookupEntry σ.entries (n, a, b, c) = some v → (keysOf σ.entries).Nodup →
      (keysOf ((σ.touch (n, a, b, c) v).entries)).Nodup ∧
      (σ.touch (n, a, b, c) v).entries.length = σ.entries.length + 0 ∧
      keysOf ((σ.touch (n, a, b, c) v).entries) ⊆
        keysOf σ.entries ++ hanoiKeys n a b c := by
    intro n σ a b c v hlk hnd
    obtain ⟨hnd', hnm⟩ := keysOf_removeEntry_nodup (n, a, b, c) hnd
    refine ⟨List.nodup_cons.mpr ⟨hnm, hnd'⟩, ?_, ?_⟩
    · show (removeEntry σ.entries (n, a, b, c)).length + 1 = σ.entries.length + 0
      have := length_removeEntry hlk
      omega
    · intro x hx
      rcases List.mem_cons.mp hx with hx | hx
      · subst hx
        exact List.mem_append.mpr
          (Or.inl (List.mem_map_of_mem Prod.fst (lookupEntry_mem hlk)))
      · exact List.mem_append.mpr (Or.inl (keysOf_removeEntry_subset _ _ hx))
  have base_case : ∀ (n : Int), 0 ≤ n → ∀ (σ : LRU HKey Nat) (a b c : Pole),
      σ.capacity = none →
      lookupEntry σ.entries (n, a, b, c) = none → (keysOf σ.entries).Nodup →
      (keysOf ((σ.insertNew (n, a, b, c) 0).entries)).Nodup ∧
      (σ.insertNew (n, a, b, c) 0).entries.length = σ.entries.length + 1 ∧
      keysOf ((σ.insertNew (n, a, b, c) 0).entries) ⊆
        keysOf σ.entries ++ hanoiKeys n a b c := by
    intro n hn σ a b c hcap hlk hnd
    rw [insertNew_entries_unbounded σ _ 0 hcap]
    refine ⟨List.nodup_cons.mpr ⟨lookupEntry_eq_none.mp hlk, hnd⟩, by simp, ?_⟩
    intro x hx
    rcases List.mem_cons.mp hx with hx | hx
    · subst hx
      exact List.mem_append.mpr (Or.inr (self_mem_hanoiKeys hn a b c))
    · exact List.mem_append.mpr (Or.inl hx)
  intro k
  induction k with
  | zero =>
    intro n hn hn0 σ a b c hcap hnd
    rw [hanoi_count_memo]
    cases hlk : lookupEntry σ.entries (n, a, b, c) with
    | some v => exact hit_case n σ a b c v hlk hnd
    | none =>
      rw [dif_neg (by omega : ¬ n > 0)]
      exact base_case n hn0 σ a b c hcap hlk hnd
  | succ k ih =>
    intro n hn hn0 σ a b c hcap hnd
    rw [hanoi_count_memo]
    cases hlk : lookupEntry σ.entries (n, a, b, c) with
    | some v => exact hit_case n σ a b c v hlk hnd
    | none =>
      by_cases hpos : n > 0
      · rw [dif_pos hpos]
        obtain ⟨nd1, len1, sub1⟩ := ih (n - 1) (by omega) (by omega) σ a c b hcap hnd
        have hcap1 : (hanoi_count_memo σ (n - 1) a c b).2.1.capacity = none := by
          rw [memo_capacity (n - 1).toNat (n - 1) le_rfl]
          exact hcap
        obtain ⟨nd2, len2, sub2⟩ := ih (n - 1) (by omega) (by omega)
          (hanoi_count_memo σ (n - 1) a c b).2.1 b a c hcap1 nd1
        have hcap2 :
            (hanoi_count_memo (hanoi_count_memo σ (n - 1) a c b).2.1
              (n - 1) b a c).2.1.capacity = none := by
          rw [memo_capacity (n - 1).toNat (n - 1) le_rfl]
          exact hcap1
        have hkey2 : ((n, a, b, c) : HKey) ∉
            keysOf (hanoi_count_memo (hanoi_count_memo σ (n - 1) a c b).2.1
              (n - 1) b a c).2.1.entries := by
          intro hmem
          have h5 : ((n - 1).toNat : Int) = n - 1 := Int.toNat_of_nonneg (by omega)
          rcases List.mem_append.mp (sub2 hmem) with h1 | h2
          · rcases List.mem_append.mp (sub1 h1) with h3 | h4
            · exact (lookupEntry_eq_none.mp hlk) h3
            · have h6 : (n : Int) ≤ ((n - 1).toNat : Int) := (hanoiKeys_fst h4).2
              omega
          · have h6 : (n : Int) ≤ ((n - 1).toNat : Int) := (hanoiKeys_fst h2).2
            omega
        have hcons := insertNew_entries_unbounded
          (hanoi_count_memo (hanoi_count_memo σ (n - 1) a c b).2.1 (n - 1) b a c).2.1
          (n, a, b, c)
          ((hanoi_count_memo σ (n - 1) a c b).1 + 1 +
            (hanoi_count_memo (hanoi_count_memo σ (n - 1) a c b).2.1 (n - 1) b a c).1)
          hcap2
        refine ⟨?_, ?_, ?_⟩
        · show (keysOf (LRU.insertNew _ (n, a, b, c) _).entries).Nodup
          rw [hcons]
          exact List.nodup_cons.mpr ⟨hkey2, nd2⟩
        · show (LRU.insertNew _ (n, a, b, c) _).entries.length =
            σ.entries.length +
              (1 + (hanoi_count_memo σ (n - 1) a c b).2.2 +
                (hanoi_count_memo (hanoi_count_memo σ (n - 1) a c b).2.1
                  (n - 1) b a c).2.2)
          rw [hcons]
          show (hanoi_count_memo (hanoi_count_memo σ (n - 1) a c b).2.1
              (n - 1) b a c).2.1.entries.length + 1 = _
          omega
        · show keysOf (LRU.insertNew _ (n, a, b, c) _).entries ⊆
            keysOf σ.entries ++ hanoiKeys n a b c
          rw [hcons]
          intro x hx
          rcases List.mem_cons.mp hx with hx | hx
          · subst hx
            exact List.mem_append.mpr (Or.inr (self_mem_hanoiKeys hn0 a b c))
          · rcases List.mem_append.mp (sub2 hx) with h1 | h2
            · rcases List.mem_append.mp (sub1 h1) with h3 | h4
              · exact List.mem_append.mpr (Or.inl h3)
              · exact List.mem_append.mpr
                  (Or.inr (hanoiKeys_mono hpos (poleTriples_sub₁ a b c) h4))
            · exact List.mem_append.mpr
                (Or.inr (hanoiKeys_mono hpos (poleTriples_sub₂ a b c) h2))
      · rw [dif_neg hpos]
        exact base_case n hn0 σ a b c hcap hlk hnd

/-- A list without duplicates is no longer than any list containing it. -/
theorem nodup_subset_length {α : Type} [DecidableEq α] {l L : List α}
    (hnd : l.Nodup) (hsub : l ⊆ L) : l.length ≤ L.length :=
  calc l.length = l.toFinset.card := (List.toFinset_card_of_nodup hnd).symm
    _ ≤ L.toFinset.card := Finset.card_le_card
        (fun _x hx => List.mem_toFinset.mpr (hsub (List.mem_toFinset.mp hx)))
    _ ≤ L.length := List.toFinset_card_le L

/-- A memoized call on a cached tuple is a hit: it returns the stored value
and never invokes the body. -/
theorem memo_hit (σ : LRU HKey Nat) (n : Int) (a b c : Pole) (v : Nat)
    (h : lookupEntry σ.entries (n, a, b, c) = some v) :
    (hanoi_count_memo σ n a b c).1 = v ∧ (hanoi_count_memo σ n a b c).2.2 = 0 := by
  rw [hanoi_count_memo, h]
  exact ⟨rfl, rfl⟩

/-!
## The claims
-/

/-- C1: the step-count function `hanoi_count` satisfies exactly the spec's
recurrence: for every integer `n > 0` and all pole values `a`, `b`, `c`,
`hanoi_count(n,a,b,c) = hanoi_count(n-1,a,c,b) + 1 + hanoi_count(n-1,b,a,c)`,
and `hanoi_count(0,a,b,c) = 0`. -/
theorem claim_C1_recurrence (n : Int) (a b c : Pole) (h : 0 < n) :
    hanoi_count n a b c =
      hanoi_count (n - 1) a c b + 1 + hanoi_count (n - 1) b a c ∧
    hanoi_count 0 a b c = 0 :=
  ⟨hanoi_count_pos h a b c, hanoi_count_nonpos le_rfl a b c⟩

/-- Witness for C1 at `n = 1`, poles `"A" "B" "C"`. -/
theorem claim_C1_recurrence_witness :
    (0 : Int) < 1 ∧
      (hanoi_count 1 "A" "B" "C" =
          hanoi_count 0 "A" "C" "B" + 1 + hanoi_count 0 "B" "A" "C" ∧
        hanoi_count 0 "A" "B" "C" = 0) :=
  ⟨by norm_num, claim_C1_recurrence 1 "A" "B" "C" (by norm_num)⟩

/-- C3: for every integer `n ≥ 0` and all pole values, the unmemoized
`hanoi_count(n,a,b,c)` performs exactly `2^n - 1` additions of `1`, i.e. its
returned step count equals `2^n - 1`. -/
theorem claim_C3_step_count (n : Int) (a b c : Pole) (_h : 0 ≤ n) :
    hanoi_count n a b c = 2 ^ n.toNat - 1 :=
  hanoi_count_closed n.toNat n rfl a b c

/-- Witness for C3 at `n = 3`. -/
theorem claim_C3_step_count_witness :
    (0 : Int) ≤ 3 ∧ hanoi_count 3 "A" "B" "C" = 2 ^ (3 : Int).toNat - 1 :=
  ⟨by norm_num, claim_C3_step_count 3 "A" "B" "C" (by norm_num)⟩

/-- C4: the concrete evaluation `hanoi_count(3, "A", "B", "C")` returns 7. -/
theorem claim_C4_three_disks : hanoi_count 3 "A" "B" "C" = 7 := by
  rw [hanoi_count_closed 3 3 rfl "A" "B" "C"]
  norm_num

/-- C9: for every integer `n ≥ 0` and all pole values, the length of the
move list returned by `hanoi(n,a,b,c)` equals `hanoi_count(n,a,b,c)`. -/
theorem claim_C9_length_refinement (n : Int) (a b c : Pole) (_h : 0 ≤ n) :
    (hanoi n a b c).length = hanoi_count n a b c :=
  hanoi_length n.toNat n rfl a b c

/-- Witness for C9 at `n = 2`. -/
theorem claim_C9_length_refinement_witness :
    (0 : Int) ≤ 2 ∧ (hanoi 2 "A" "B" "C").length = hanoi_count 2 "A" "B" "C" :=
  ⟨by norm_num, claim_C9_length_refinement 2 "A" "B" "C" (by norm_num)⟩

/-- C10: for every integer `n ≤ 0` (including negative `n`) and any poles,
`hanoi(n,a,b,c)` returns the empty list and `hanoi_count(n,a,b,c)` returns
`0`: the `n_disks > 0` guard makes both functions total on all integer
inputs, with no recursion on non-positive `n`. -/
theorem claim_C10_nonpositive_guard (n : Int) (a b c : Pole) (h : n ≤ 0) :
    hanoi n a b c = [] ∧ hanoi_count n a b c = 0 :=
  ⟨hanoi_nonpos h a b c, hanoi_count_nonpos h a b c⟩

/-- Witness for C10 at `n = -3`. -/
theorem claim_C10_nonpositive_guard_witness :
    (-3 : Int) ≤ 0 ∧ (hanoi (-3) "A" "B" "C" = [] ∧ hanoi_count (-3) "A" "B" "C" = 0) :=
  ⟨by norm_num, claim_C10_nonpositive_guard (-3) "A" "B" "C" (by norm_num)⟩

/-- C2: for every argument tuple with `n ≥ 0`, the memoized
(`@lru_cache()`-wrapped, default `maxsize` 128) `hanoi_count` returns the
same value as the plain `hanoi_count`; moreover a repeated call with the
same tuple returns the stored result with zero invocations of the
underlying body. -/
theorem claim_C2_memo_equiv (n : Int) (a b c : Pole) (_h : 0 ≤ n) :
    (hanoi_count_memo (newCache HKey Nat (some 128)) n a b c).1 = hanoi_count n a b c ∧
    (hanoi_count_memo
        (hanoi_count_memo (newCache HKey Nat (some 128)) n a b c).2.1 n a b c).1 =
      hanoi_count n a b c ∧
    (hanoi_count_memo
        (hanoi_count_memo (newCache HKey Nat (some 128)) n a b c).2.1 n a b c).2.2 = 0 := by
  have hcc : cacheCorrect (newCache HKey Nat (some 128)) := by
    intro e he
    simp [newCache] at he
  obtain ⟨hv, -⟩ := memo_correct n.toNat n le_rfl (newCache HKey Nat (some 128)) a b c hcc
  have hself := memo_lookup_self (newCache HKey Nat (some 128)) n a b c (by simp [newCache])
  obtain ⟨h2v, h2i⟩ := memo_hit _ n a b c _ hself
  exact ⟨hv, by rw [h2v, hv], h2i⟩

/-- Witness for C2 at `n = 2`. -/
theorem claim_C2_memo_equiv_witness :
    (0 : Int) ≤ 2 ∧
      ((hanoi_count_memo (newCache HKey Nat (some 128)) 2 "A" "B" "C").1 =
          hanoi_count 2 "A" "B" "C" ∧
        (hanoi_count_memo
            (hanoi_count_memo (newCache HKey Nat (some 128)) 2 "A" "B" "C").2.1
            2 "A" "B" "C").1 = hanoi_count 2 "A" "B" "C" ∧
        (hanoi_count_memo
            (hanoi_count_memo (newCache HKey Nat (some 128)) 2 "A" "B" "C").2.1
            2 "A" "B" "C").2.2 = 0) :=
  ⟨by norm_num, claim_C2_memo_equiv 2 "A" "B" "C" (by norm_num)⟩

/-- C5: with memoization keyed on the full tuple and an unbounded cache, the
number of invocations of the underlying body from a top-level call on `n`
disks is at most `6 * (n + 1)` — `n` times the number of pole permutations,
a small constant — hence linear in `n`; in particular for `n = 24` it is at
most `150`, substantially smaller than `2^24 - 1`. -/
theorem claim_C5_linear_invocations (n : Int) (a b c : Pole) (_h : 0 ≤ n) :
    (hanoi_count_memo (newCache HKey Nat none) n a b c).2.2 ≤ 6 * (n.toNat + 1) ∧
    (hanoi_count_memo (newCache HKey Nat none) 24 a b c).2.2 < 2 ^ 24 - 1 := by
  have main : ∀ (m : Int), 0 ≤ m →
      (hanoi_count_memo (newCache HKey Nat none) m a b c).2.2 ≤ 6 * (m.toNat + 1) := by
    intro m hm
    obtain ⟨nd, len, sub⟩ := memo_growth m.toNat m le_rfl hm
      (newCache HKey Nat none) a b c rfl (by simp [newCache, keysOf])
    have hlen : (keysOf (hanoi_count_memo (newCache HKey Nat none) m a b c).2.1.entries).length
        = (hanoi_count_memo (newCache HKey Nat none) m a b c).2.1.entries.length :=
      List.length_map _ _
    have hsub' : keysOf (hanoi_count_memo (newCache HKey Nat none) m a b c).2.1.entries ⊆
        hanoiKeys m a b c := by
      intro x hx
      rcases List.mem_append.mp (sub hx) with h1 | h2
      · simp [newCache, keysOf] at h1
      · exact h2
    have hb := nodup_subset_length nd hsub'
    rw [hlen, length_hanoiKeys] at hb
    have hempty : (newCache HKey Nat none).entries.length = 0 := rfl
    omega
  refine ⟨main n _h, lt_of_le_of_lt (main 24 (by norm_num)) ?_⟩
  rw [show (24 : Int).toNat = 24 from rfl]
  norm_num

/-- Witness for C5 at `n = 24`. -/
theorem claim_C5_linear_invocations_witness :
    (0 : Int) ≤ 24 ∧
      ((hanoi_count_memo (newCache HKey Nat none) 24 "A" "B" "C").2.2 ≤
          6 * ((24 : Int).toNat + 1) ∧
        (hanoi_count_memo (newCache HKey Nat none) 24 "A" "B" "C").2.2 < 2 ^ 24 - 1) :=
  ⟨by norm_num, claim_C5_linear_invocations 24 "A" "B" "C" (by norm_num)⟩

/-- C7: the memoization key includes all four arguments — two calls whose
tuples differ in exactly one argument are distinct keys, both results match
the plain `hanoi_count` of their own tuple, and after the two calls the
cache holds a separate, correctly-valued entry for each tuple. -/
theorem claim_C7_key_completeness (n1 n2 : Int) (a1 b1 c1 a2 b2 c2 : Pole)
    (hdiff : (n1 ≠ n2 ∧ a1 = a2 ∧ b1 = b2 ∧ c1 = c2) ∨
      (n1 = n2 ∧ a1 ≠ a2 ∧ b1 = b2 ∧ c1 = c2) ∨
      (n1 = n2 ∧ a1 = a2 ∧ b1 ≠ b2 ∧ c1 = c2) ∨
      (n1 = n2 ∧ a1 = a2 ∧ b1 = b2 ∧ c1 ≠ c2)) :
    ((n1, a1, b1, c1) : HKey) ≠ (n2, a2, b2, c2) ∧
    (hanoi_count_memo (newCache HKey Nat none) n1 a1 b1 c1).1 =
      hanoi_count n1 a1 b1 c1 ∧
    (hanoi_count_memo (hanoi_count_memo (newCache HKey Nat none) n1 a1 b1 c1).2.1
        n2 a2 b2 c2).1 = hanoi_count n2 a2 b2 c2 ∧
    lookupEntry
        (hanoi_count_memo (hanoi_count_memo (newCache HKey Nat none) n1 a1 b1 c1).2.1
          n2 a2 b2 c2).2.1.entries (n1, a1, b1, c1) =
      some (hanoi_count n1 a1 b1 c1) ∧
    lookupEntry
        (hanoi_count_memo (hanoi_count_memo (newCache HKey Nat none) n1 a1 b1 c1).2.1
          n2 a2 b2 c2).2.1.entries (n2, a2, b2, c2) =
      some (hanoi_count n2 a2 b2 c2) := by
  have hne : ((n1, a1, b1, c1) : HKey) ≠ (n2, a2, b2, c2) := by
    intro heq
    rw [Prod.ext_iff, Prod.ext_iff, Prod.ext_iff] at heq
    simp only at heq
    tauto
  have hcc0 : cacheCorrect (newCache HKey Nat none) := by
    intro e he
    simp [newCache] at he
  obtain ⟨hv1, hcc1⟩ :=
    memo_correct n1.toNat n1 le_rfl (newCache HKey Nat none) a1 b1 c1 hcc0
  obtain ⟨hv2, -⟩ := memo_correct n2.toNat n2 le_rfl
    (hanoi_count_memo (newCache HKey Nat none) n1 a1 b1 c1).2.1 a2 b2 c2 hcc1
  have hcap1 : (hanoi_count_memo (newCache HKey Nat none) n1 a1 b1 c1).2.1.capacity
      = none :=
    memo_capacity n1.toNat n1 le_rfl (newCache HKey Nat none) a1 b1 c1
  have hself1 := memo_lookup_self (newCache HKey Nat none) n1 a1 b1 c1
    (by simp [newCache])
  rw [hv1] at hself1
  have hmono := memo_lookup_mono n2.toNat n2 le_rfl
    (hanoi_count_memo (newCache HKey Nat none) n1 a1 b1 c1).2.1 a2 b2 c2
    (n1, a1, b1, c1) (hanoi_count n1 a1 b1 c1) hcap1 hself1
  have hself2 := memo_lookup_self
    (hanoi_count_memo (newCache HKey Nat none) n1 a1 b1 c1).2.1 n2 a2 b2 c2
    (by rw [hcap1]; intro hcontra; exact Option.noConfusion hcontra)
  rw [hv2] at hself2
  exact ⟨hne, hv1, hv2, hmono, hself2⟩

/-- Witness for C7: tuples `(0, "A", "B", "C")` and `(1, "A", "B", "C")`,
differing only in the first argument. -/
theorem claim_C7_key_completeness_witness :
    (((0 : Int) ≠ 1 ∧ "A" = "A" ∧ "B" = "B" ∧ "C" = "C") ∨
      ((0 : Int) = 1 ∧ "A" ≠ "A" ∧ "B" = "B" ∧ "C" = "C") ∨
      ((0 : Int) = 1 ∧ "A" = "A" ∧ "B" ≠ "B" ∧ "C" = "C") ∨
      ((0 : Int) = 1 ∧ "A" = "A" ∧ "B" = "B" ∧ "C" ≠ "C")) ∧
    (((0 : Int), "A", "B", "C") : HKey) ≠ ((1 : Int), "A", "B", "C") ∧
    (hanoi_count_memo (newCache HKey Nat none) 0 "A" "B" "C").1 =
      hanoi_count 0 "A" "B" "C" ∧
    (hanoi_count_memo (hanoi_count_memo (newCache HKey Nat none) 0 "A" "B" "C").2.1
        1 "A" "B" "C").1 = hanoi_count 1 "A" "B" "C" ∧
    lookupEntry
        (hanoi_count_memo (hanoi_count_memo (newCache HKey Nat none) 0 "A" "B" "C").2.1
          1 "A" "B" "C").2.1.entries (0, "A", "B", "C") =
      some (hanoi_count 0 "A" "B" "C") ∧
    lookupEntry
        (hanoi_count_memo (hanoi_count_memo (newCache HKey Nat none) 0 "A" "B" "C").2.1
          1 "A" "B" "C").2.1.entries (1, "A", "B", "C") =
      some (hanoi_count 1 "A" "B" "C") :=
  ⟨Or.inl ⟨by norm_num, rfl, rfl, rfl⟩,
    claim_C7_key_completeness 0 1 "A" "B" "C" "A" "B" "C"
      (Or.inl ⟨by norm_num, rfl, rfl, rfl⟩)⟩

/-- `get_or_compute` never changes the configured capacity. -/
theorem getOrCompute_capacity {K V : Type} [DecidableEq K]
    (σ : LRU K V) (k : K) (f : Unit → V) :
    (getOrCompute σ k f).2.1.capacity = σ.capacity := by
  rw [getOrCompute]
  cases hlk : lookupEntry σ.entries k with
  | some v => rfl
  | none => exact capacity_insertNew σ k (f ())

/-- One `get_or_compute` step preserves the capacity bound on the size. -/
theorem getOrCompute_size_le {K V : Type} [DecidableEq K]
    (σ : LRU K V) (k : K) (f : Unit → V) (cap : Nat)
    (hcap : σ.capacity = some cap) (hsz : σ.size ≤ cap) :
    (getOrCompute σ k f).2.1.size ≤ cap := by
  rw [getOrCompute]
  cases hlk : lookupEntry σ.entries k with
  | some v =>
    show ((k, v) :: removeEntry σ.entries k).length ≤ cap
    rw [List.length_cons]
    have h1 := length_removeEntry hlk
    have h2 : σ.entries.length ≤ cap := hsz
    omega
  | none =>
    rcases σ with ⟨es, cap'⟩
    obtain rfl : cap' = some cap := hcap
    have h2 : es.length ≤ cap := hsz
    show (if ((k, f ()) :: es).length > cap then ((k, f ()) :: es).dropLast
        else (k, f ()) :: es).length ≤ cap
    split
    · rw [List.length_dropLast, List.length_cons]
      omega
    · next hle =>
      rw [List.length_cons] at hle ⊢
      omega

/-- Every sequence of `get_or_compute` operations keeps the size within a
finite capacity. -/
theorem applyOps_size_le {K V : Type} [DecidableEq K] :
    ∀ (ops : List (K × V)) (σ : LRU K V) (cap : Nat),
      σ.capacity = some cap → σ.size ≤ cap → (applyOps ops σ).size ≤ cap := by
  intro ops
  induction ops with
  | nil =>
    intro σ cap _ hsz
    exact hsz
  | cons op ops ih =>
    intro σ cap hcap hsz
    show (applyOps ops (getOrCompute σ op.1 (fun _ => op.2)).2.1).size ≤ cap
    exact ih _ cap (by rw [getOrCompute_capacity]; exact hcap)
      (getOrCompute_size_le σ op.1 _ cap hcap hsz)

/-- C6: on a cache with finite capacity, `size ≤ capacity` holds after every
operation of any operation sequence; and a miss-insertion on a full cache
(capacity ≥ 1) evicts exactly the single least-recently-used entry — the
new state keeps every entry but the last, in order, with the new key in
front — so the size returns to the capacity. -/
theorem claim_C6_capacity_invariant {K V : Type} [DecidableEq K] (cap : Nat) :
    (∀ (ops : List (K × V)) (i : Nat),
      (applyOps (ops.take i) (newCache K V (some cap))).size ≤ cap) ∧
    (∀ (σ : LRU K V) (k : K) (f : Unit → V),
      σ.capacity = some cap → σ.size = cap → 1 ≤ cap →
      lookupEntry σ.entries k = none →
      (getOrCompute σ k f).2.1.entries = (k, f ()) :: σ.entries.dropLast ∧
      (getOrCompute σ k f).2.1.size = cap) := by
  constructor
  · intro ops i
    exact applyOps_size_le (ops.take i) (newCache K V (some cap)) cap rfl
      (by simp [newCache, LRU.size])
  · intro σ k f hcap hsz h1 hlk
    rcases σ with ⟨es, cap'⟩
    obtain rfl : cap' = some cap := hcap
    have hlen : es.length = cap := hsz
    rw [getOrCompute, hlk]
    have hgt : ((k, f ()) :: es).length > cap := by
      rw [List.length_cons]
      omega
    constructor
    · show (if ((k, f ()) :: es).length > cap then ((k, f ()) :: es).dropLast
          else (k, f ()) :: es) = (k, f ()) :: es.dropLast
      rw [if_pos hgt]
      cases es with
      | nil =>
        exfalso
        rw [List.length_nil] at hlen
        omega
      | cons e es' => rfl
    · show (if ((k, f ()) :: es).length > cap then ((k, f ()) :: es).dropLast
          else (k, f ()) :: es).length = cap
      rw [if_pos hgt, List.length_dropLast, List.length_cons]
      omega

/-- Witness for C6 with `K = V = Nat`, capacity 2: the size bound after a
three-operation sequence, and the eviction shape on the full cache
`[(2, 20), (1, 10)]` when key `3` misses. -/
theorem claim_C6_capacity_invariant_witness :
    (applyOps (([(1, 10), (2, 20), (3, 30)] : List (Nat × Nat)).take 3)
        (newCache Nat Nat (some 2))).size ≤ 2 ∧
    ((getOrCompute (LRU.mk [(2, 20), (1, 10)] (some 2)) 3 (fun _ => 30)).2.1.entries =
        (3, 30) :: ([(2, 20), (1, 10)] : List (Nat × Nat)).dropLast ∧
      (getOrCompute (LRU.mk [(2, 20), (1, 10)] (some 2)) 3 (fun _ => 30)).2.1.size = 2) :=
  ⟨(claim_C6_capacity_invariant 2).1 [(1, 10), (2, 20), (3, 30)] 3,
    (claim_C6_capacity_invariant 2).2 (LRU.mk [(2, 20), (1, 10)] (some 2)) 3
      (fun _ => 30) rfl rfl (by norm_num) rfl⟩

/-- C8: LRU eviction order — on a cache of capacity 2, after inserting `k1`
then `k2`, a hit on `k1` promotes it; inserting `k3` then evicts exactly
`k2`, leaving `k1` and `k3` present. -/
theorem claim_C8_eviction_order {K V : Type} [DecidableEq K]
    (k1 k2 k3 : K) (v1 v2 v3 : V)
    (h12 : k1 ≠ k2) (h13 : k1 ≠ k3) (h23 : k2 ≠ k3) :
    lookupEntry (getOrCompute (getOrCompute (getOrCompute
        (getOrCompute (newCache K V (some 2)) k1 (fun _ => v1)).2.1
        k2 (fun _ => v2)).2.1 k1 (fun _ => v1)).2.1 k3 (fun _ => v3)).2.1.entries k2
      = none ∧
    lookupEntry (getOrCompute (getOrCompute (getOrCompute
        (getOrCompute (newCache K V (some 2)) k1 (fun _ => v1)).2.1
        k2 (fun _ => v2)).2.1 k1 (fun _ => v1)).2.1 k3 (fun _ => v3)).2.1.entries k1
      = some v1 ∧
    lookupEntry (getOrCompute (getOrCompute (getOrCompute
        (getOrCompute (newCache K V (some 2)) k1 (fun _ => v1)).2.1
        k2 (fun _ => v2)).2.1 k1 (fun _ => v1)).2.1 k3 (fun _ => v3)).2.1.entries k3
      = some v3 := by
  have e1 : (getOrCompute (newCache K V (some 2)) k1 (fun _ => v1)).2.1 =
      LRU.mk [(k1, v1)] (some 2) := by
    rw [getOrCompute]
    rfl
  have e2 : (getOrCompute (LRU.mk [(k1, v1)] (some 2)) k2 (fun _ => v2)).2.1 =
      LRU.mk [(k2, v2), (k1, v1)] (some 2) := by
    rw [getOrCompute]
    rw [show lookupEntry [(k1, v1)] k2 = none by
      rw [lookupEntry, if_neg h12, lookupEntry]]
    rfl
  have e3 : (getOrCompute (LRU.mk [(k2, v2), (k1, v1)] (some 2)) k1 (fun _ => v1)).2.1 =
      LRU.mk [(k1, v1), (k2, v2)] (some 2) := by
    rw [getOrCompute]
    rw [show lookupEntry [(k2, v2), (k1, v1)] k1 = some v1 by
      rw [lookupEntry, if_neg (Ne.symm h12), lookupEntry, if_pos rfl]]
    show LRU.mk ((k1, v1) :: removeEntry [(k2, v2), (k1, v1)] k1) (some 2) = _
    rw [removeEntry, if_neg (Ne.symm h12), removeEntry, if_pos rfl]
  have e4 : (getOrCompute (LRU.mk [(k1, v1), (k2, v2)] (some 2)) k3 (fun _ => v3)).2.1 =
      LRU.mk [(k3, v3), (k1, v1)] (some 2) := by
    rw [getOrCompute]
    rw [show lookupEntry [(k1, v1), (k2, v2)] k3 = none by
      rw [lookupEntry, if_neg h13, lookupEntry, if_neg h23, lookupEntry]]
    rfl
  show lookupEntry (getOrCompute (getOrCompute (getOrCompute
        (getOrCompute (newCache K V (some 2)) k1 (fun _ => v1)).2.1
        k2 (fun _ => v2)).2.1 k1 (fun _ => v1)).2.1 k3 (fun _ => v3)).2.1.entries k2
      = none ∧ _
  rw [e1, e2, e3, e4]
  refine ⟨?_, ?_, ?_⟩
  · rw [lookupEntry, if_neg (Ne.symm h23), lookupEntry, if_neg h12, lookupEntry]
  · rw [lookupEntry, if_neg (Ne.symm h13), lookupEntry, if_pos rfl]
  · rw [lookupEntry, if_pos rfl]

/-- Witness for C8 with `K = V = Nat`: keys `1, 2, 3`, values `10, 20, 30`. -/
theorem claim_C8_eviction_order_witness :
    lookupEntry (getOrCompute (getOrCompute (getOrCompute
        (getOrCompute (newCache Nat Nat (some 2)) 1 (fun _ => 10)).2.1
        2 (fun _ => 20)).2.1 1 (fun _ => 10)).2.1 3 (fun _ => 30)).2.1.entries 2
      = none ∧
    lookupEntry (getOrCompute (getOrCompute (getOrCompute
        (getOrCompute (newCache Nat Nat (some 2)) 1 (fun _ => 10)).2.1
        2 (fun _ => 20)).2.1 1 (fun _ => 10)).2.1 3 (fun _ => 30)).2.1.entries 1
      = some 10 ∧
    lookupEntry (getOrCompute (getOrCompute (getOrCompute
        (getOrCompute (newCache Nat Nat (some 2)) 1 (fun _ => 10)).2.1
        2 (fun _ => 20)).2.1 1 (fun _ => 10)).2.1 3 (fun _ => 30)).2.1.entries 3
      = some 30 :=
  claim_C8_eviction_order 1 2 3 10 20 30 (by norm_num) (by norm_num) (by norm_num)
